import Mathlib

/-!
Shallow embedding of the region-blur engine of the zimage repository
(`src/zimage/ui/editor/editor_tab/blur.py`: `apply_blur` and `BlurWorker.run`),
together with proofs of the specified properties.

Modelling conventions:
* a `QImage` is modelled as a `RasterImage`: a width, a height, and a total
  pixel function `Int → Int → Pixel`; only in-bounds pixels are ever
  meaningful (the code guards every access with `0 <= sx < width` etc.);
* `QPainter.drawImage(ox, oy, img)` onto a destination is modelled as copying
  the drawn image's pixels over the destination, clipped to the destination
  bounds (`drawImageAt`);
* `Qt.GlobalColor.transparent` is the pixel `(0,0,0,0)`;
* Python integers are `Int`; channel sums and counts, which are always
  non-negative, are `Nat`; Python `//` on the non-negative sums is `Nat`
  division;
* the mutable pixel loop of `apply_blur` is embedded as a fold over the
  pixel list threading the pair (source image, temp image) through every
  iteration, mirroring that the loop body reads `source` and writes
  `temp_blur` via `setPixel`.
-/

/-- A pixel: the four 8-bit channels `qRed`, `qGreen`, `qBlue`, `qAlpha`
of a QImage pixel value, kept unpacked. -/
structure Pixel where
  r : Nat
  g : Nat
  b : Nat
  a : Nat
deriving DecidableEq

/-- The transparent pixel `Qt.GlobalColor.transparent`, i.e. `(0,0,0,0)`. -/
def Pixel.transparent : Pixel := ⟨0, 0, 0, 0⟩

/-- A raster image: width, height and a pixel function over `Int`
coordinates (QImage coordinates are machine integers; the code only ever
reads coordinates it has checked to be inside the bounds). -/
structure RasterImage where
  width : Nat
  height : Nat
  pix : Int → Int → Pixel

/-- Membership of a coordinate pair in the image bounds, the guard
`0 <= sx < source.width() and 0 <= sy < source.height()` of the source. -/
def RasterImage.inB (img : RasterImage) (i j : Int) : Prop :=
  0 ≤ i ∧ i < (img.width : Int) ∧ 0 ≤ j ∧ j < (img.height : Int)

instance (img : RasterImage) (i j : Int) : Decidable (img.inB i j) :=
  inferInstanceAs (Decidable (0 ≤ i ∧ i < (img.width : Int) ∧ 0 ≤ j ∧ j < (img.height : Int)))

/-- A QRect: the rectangle `(x, y, width, height)` passed to `apply_blur`. -/
structure Rect where
  x : Int
  y : Int
  w : Int
  h : Int

/-- The blur types accepted by `apply_blur` (the Python strings
`"gaussian"`, `"box"`, `"motion"`; `"gaussian"` and `"box"` take the same
box-filter branch of the code). -/
inductive BlurType where
  | gaussian : BlurType
  | box : BlurType
  | motion : BlurType
deriving DecidableEq

/-- An image of the given dimensions with every pixel set to `c`
(QImage construction followed by `fill`). -/
def mkFilled (w h : Nat) (c : Pixel) : RasterImage :=
  ⟨w, h, fun _ _ => c⟩

/-- QImage.setPixel: update one pixel of an image. -/
def setPixel (img : RasterImage) (a b : Int) (c : Pixel) : RasterImage :=
  { img with pix := fun i j => if i = a ∧ j = b then c else img.pix i j }

/-- QPainter.drawImage(ox, oy, s) onto `dst`, modelled as copying the
pixels of `s` over `dst`, clipped to the bounds of `dst`. -/
def drawImageAt (dst : RasterImage) (ox oy : Int) (s : RasterImage) : RasterImage :=
  { dst with
    pix := fun i j =>
      if ox ≤ i ∧ i < ox + (s.width : Int) ∧ oy ≤ j ∧ j < oy + (s.height : Int) ∧ dst.inB i j
      then s.pix (i - ox) (j - oy)
      else dst.pix i j }

/-- Python `range(a, b)` over integers, as the list `[a, a+1, ..., b-1]`. -/
def intRange (a b : Int) : List Int :=
  (List.range (b - a).toNat).map (fun (k : Nat) => a + (k : Int))

/-- The channel accumulator of the blur inner loop:
`r_sum, g_sum, b_sum, a_sum, count`. -/
structure BlurAcc where
  r : Nat
  g : Nat
  b : Nat
  a : Nat
  count : Nat
deriving DecidableEq

/-- The zero accumulator `r_sum, g_sum, b_sum, a_sum = 0, 0, 0, 0; count = 0`. -/
def BlurAcc.zero : BlurAcc := ⟨0, 0, 0, 0, 0⟩

/-- One step of the accumulation loop: if the sample coordinates are inside
the image bounds, add its channels to the sums and bump the count,
otherwise leave the accumulator unchanged. -/
def sampleStep (src : RasterImage) (acc : BlurAcc) (s : Int × Int) : BlurAcc :=
  if src.inB s.1 s.2 then
    let p := src.pix s.1 s.2
    ⟨acc.r + p.r, acc.g + p.g, acc.b + p.b, acc.a + p.a, acc.count + 1⟩
  else acc

/-- Accumulate the guarded samples reached from the offsets of `l` through
the coordinate map `f` (the generic shape of the two inner sampling loops). -/
def accList {α : Type} (src : RasterImage) (f : α → Int × Int) (l : List α)
    (acc : BlurAcc) : BlurAcc :=
  l.foldl (fun a d => sampleStep src a (f d)) acc

/-- The offsets `(dx, dy)` of the box-blur window, in the iteration order of
the source: `dy` in `range(-radius, radius+1)` outer, `dx` inner. -/
def boxOffsets (radius : Int) : List (Int × Int) :=
  (intRange (-radius) (radius + 1)).flatMap
    (fun dy => (intRange (-radius) (radius + 1)).map (fun dx => (dx, dy)))

/-- The box/gaussian branch accumulation for the pixel centred at
`(cx, cy)`: samples `(cx+dx, cy+dy)` for `dx, dy ∈ [-radius, radius]`. -/
def accumulateBox (src : RasterImage) (cx cy radius : Int) : BlurAcc :=
  accList src (fun d => (cx + d.1, cy + d.2)) (boxOffsets radius) BlurAcc.zero

/-- The motion branch accumulation for the pixel centred at `(cx, cy)`:
samples `(cx+dx, cy)` for `dx ∈ [-radius, radius]` on the same row. -/
def accumulateMotion (src : RasterImage) (cx cy radius : Int) : BlurAcc :=
  accList src (fun dx => (cx + dx, cy)) (intRange (-radius) (radius + 1)) BlurAcc.zero

/-- The accumulator computed for the pixel centred at `(cx, cy)` by the
branch the blur type selects. -/
def sampleAt (bt : BlurType) (src : RasterImage) (cx cy radius : Int) : BlurAcc :=
  match bt with
  | .gaussian => accumulateBox src cx cy radius
  | .box => accumulateBox src cx cy radius
  | .motion => accumulateMotion src cx cy radius

/-- The average pixel `(r_sum // count, g_sum // count, b_sum // count,
a_sum // count)` of an accumulator. -/
def avgPixel (acc : BlurAcc) : Pixel :=
  ⟨acc.r / acc.count, acc.g / acc.count, acc.b / acc.count, acc.a / acc.count⟩

/-- The region-relative pixel coordinates in loop order:
`py` in `range(h)` outer, `px` in `range(w)` inner, processing `(px, py)`. -/
def pixelPts (w h : Int) : List (Int × Int) :=
  (intRange 0 h).flatMap (fun py => (intRange 0 w).map (fun px => (px, py)))

/-- One iteration of the pixel loop on the state (source, temp): sample
around the absolute centre `(x+px, y+py)` from the source, and when the
count is positive write the average into the temp image at `(px, py)`. -/
def blurStep (bt : BlurType) (x y radius : Int) (st : RasterImage × RasterImage)
    (p : Int × Int) : RasterImage × RasterImage :=
  let acc := sampleAt bt st.1 (x + p.1) (y + p.2) radius
  if 0 < acc.count then (st.1, setPixel st.2 p.1 p.2 (avgPixel acc)) else (st.1, st.2)

/-- The full pixel loop over the region, threading (source, temp). -/
def blurLoop (bt : BlurType) (x y radius : Int) (pts : List (Int × Int))
    (st : RasterImage × RasterImage) : RasterImage × RasterImage :=
  pts.foldl (blurStep bt x y radius) st

/-- Clamped region x: `x = max(0, min(x, source.width() - 1))`. -/
def clampedX (src : RasterImage) (rect : Rect) : Int :=
  max 0 (min rect.x ((src.width : Int) - 1))

/-- Clamped region y: `y = max(0, min(y, source.height() - 1))`. -/
def clampedY (src : RasterImage) (rect : Rect) : Int :=
  max 0 (min rect.y ((src.height : Int) - 1))

/-- Clamped region width: `w = min(w, source.width() - x)`. -/
def clampedW (src : RasterImage) (rect : Rect) : Int :=
  min rect.w ((src.width : Int) - clampedX src rect)

/-- Clamped region height: `h = min(h, source.height() - y)`. -/
def clampedH (src : RasterImage) (rect : Rect) : Int :=
  min rect.h ((src.height : Int) - clampedY src rect)

/-- Radius clamping: `radius = max(1, min(20, radius))`. -/
def clampRadius (radius : Int) : Int :=
  max 1 (min 20 radius)

/-- Membership in the clamped region, in absolute image coordinates. -/
def inClampedRegion (src : RasterImage) (rect : Rect) (i j : Int) : Prop :=
  clampedX src rect ≤ i ∧ i < clampedX src rect + clampedW src rect ∧
    clampedY src rect ≤ j ∧ j < clampedY src rect + clampedH src rect

instance (src : RasterImage) (rect : Rect) (i j : Int) :
    Decidable (inClampedRegion src rect i j) :=
  inferInstanceAs (Decidable (clampedX src rect ≤ i ∧ i < clampedX src rect + clampedW src rect ∧
    clampedY src rect ≤ j ∧ j < clampedY src rect + clampedH src rect))

/-- Membership in the clamped region padded by `R` on all sides, in
absolute image coordinates (before intersecting with the image bounds). -/
def inPaddedRegion (src : RasterImage) (rect : Rect) (R i j : Int) : Prop :=
  clampedX src rect - R ≤ i ∧ i < clampedX src rect + clampedW src rect + R ∧
    clampedY src rect - R ≤ j ∧ j < clampedY src rect + clampedH src rect + R

instance (src : RasterImage) (rect : Rect) (R i j : Int) :
    Decidable (inPaddedRegion src rect R i j) :=
  inferInstanceAs (Decidable (clampedX src rect - R ≤ i ∧
    i < clampedX src rect + clampedW src rect + R ∧
    clampedY src rect - R ≤ j ∧ j < clampedY src rect + clampedH src rect + R))

/-- The body of `apply_blur`, returning the pair (source image as observed
after the call, result image). The source copy is threaded through the
pixel loop together with the temp image, mirroring that each loop iteration
reads `source` and writes `temp_blur`; the returned result is the source
copied onto a fresh transparent image, with the blurred temp image then
drawn over the clamped region, unless the clamped region is degenerate. -/
def apply_blur_run (srcImg : RasterImage) (rect : Rect) (bt : BlurType) (radius : Int) :
    RasterImage × RasterImage :=
  let source := srcImg
  let result1 := drawImageAt (mkFilled source.width source.height Pixel.transparent) 0 0 source
  let x := clampedX source rect
  let y := clampedY source rect
  let w := clampedW source rect
  let h := clampedH source rect
  if w ≤ 1 ∨ h ≤ 1 then (srcImg, result1)
  else
    let temp0 := mkFilled w.toNat h.toNat Pixel.transparent
    let st := blurLoop bt x y (clampRadius radius) (pixelPts w h) (source, temp0)
    (st.1, drawImageAt result1 x y st.2)

/-- `apply_blur` of `blur.py`: the result image of a successful run. -/
def apply_blur (srcImg : RasterImage) (rect : Rect) (bt : BlurType) (radius : Int) :
    RasterImage :=
  (apply_blur_run srcImg rect bt radius).2

/-- The sequence of percentages delivered to the progress callback during
one `apply_blur` call: the loop counts processed pixels from 1 to
`total = h * w` and emits `int((processed / total) * 100)` at every multiple
of 100 processed pixels (modelled with exact integer arithmetic as
`processed * 100 / total`), and a final `100` after the blurred region has
been drawn; on the degenerate early-return path nothing is emitted.
All three blur branches emit identically. -/
def progressEmits (src : RasterImage) (rect : Rect) (radius : Int) : List Nat :=
  let w := clampedW src rect
  let h := clampedH src rect
  if w ≤ 1 ∨ h ≤ 1 then []
  else
    let total := (h * w).toNat
    ((((List.range total).map (fun i => i + 1)).filter (fun k => k % 100 == 0)).map
      (fun k => k * 100 / total)) ++ [100]

/-- `apply_blur` with its three failure sites made explicit: `exc` models
an exception caught by the outer `try`, `okCopy` the success of
`painter.begin` for the initial copy, `okDraw` the success of
`result_painter.begin` for drawing the blurred region. Every failure path
of the source returns the unmodified `source_image`. -/
def apply_blur_fallible (exc okCopy okDraw : Bool) (srcImg : RasterImage) (rect : Rect)
    (bt : BlurType) (radius : Int) : RasterImage :=
  if exc then srcImg
  else if !okCopy then srcImg
  else if clampedW srcImg rect ≤ 1 ∨ clampedH srcImg rect ≤ 1 then
    apply_blur srcImg rect bt radius
  else if !okDraw then srcImg
  else apply_blur srcImg rect bt radius

/-- `BlurWorker.run`: the list of images emitted through the `finished`
signal; `exc` models an exception escaping `apply_blur` (caught by the
worker, which then emits the original source image). -/
def blurWorkerRun (exc okCopy okDraw : Bool) (srcImg : RasterImage) (rect : Rect)
    (bt : BlurType) (radius : Int) : List RasterImage :=
  if exc then [srcImg]
  else [apply_blur_fallible false okCopy okDraw srcImg rect bt radius]

/-- Modelled from the spec (§4.1, edge clamping): the sample coordinates
the spec prescribes for the box window centred at `(cx, cy)` — exactly
those `(cx+dx, cy+dy)` with `dx, dy ∈ [-R, R]` whose absolute coordinates
lie inside the image bounds. -/
def specWindow (src : RasterImage) (cx cy R : Int) : List (Int × Int) :=
  ((intRange (-R) (R + 1)).flatMap
      (fun dy => (intRange (-R) (R + 1)).map (fun dx => (cx + dx, cy + dy)))).filter
    (fun s => decide (src.inB s.1 s.2))

/-- Modelled from the spec (§4.1): the per-channel integer floor-division
average over exactly the in-bounds samples of the box window. -/
def specBoxAvg (src : RasterImage) (cx cy R : Int) : Pixel :=
  let pts := specWindow src cx cy R
  ⟨((pts.map (fun s => (src.pix s.1 s.2).r)).sum) / pts.length,
   ((pts.map (fun s => (src.pix s.1 s.2).g)).sum) / pts.length,
   ((pts.map (fun s => (src.pix s.1 s.2).b)).sum) / pts.length,
   ((pts.map (fun s => (src.pix s.1 s.2).a)).sum) / pts.length⟩

/-- A 100×100 uniform image, used for the concrete edge-clamping scenario
of the spec (`region = (0,0,10,10)` on a 100×100 image). -/
def demoImage : RasterImage :=
  ⟨100, 100, fun _ _ => ⟨7, 7, 7, 7⟩⟩

/-- An 8×8 test image with varying pixel values, a concrete witness input. -/
def wSrc : RasterImage :=
  ⟨8, 8, fun i j => ⟨(i + 2 * j).toNat % 250, 10, 20, 255⟩⟩

/-- A rectangle whose clamped region on `wSrc` is non-degenerate. -/
def wRect : Rect := ⟨2, 2, 4, 4⟩

/-- A rectangle that clamps to width 1 (degenerate) on any image of
positive dimensions. -/
def degRect : Rect := ⟨0, 0, 1, 5⟩

/-- The constant pixel value of the uniform-field witness. -/
def v0 : Pixel := ⟨10, 20, 30, 40⟩

/-- A 9×9 image uniformly filled with `v0`. -/
def constImg : RasterImage := ⟨9, 9, fun _ _ => v0⟩

/-- A test rectangle inside `constImg`. -/
def cRect : Rect := ⟨1, 1, 5, 5⟩

/-- The `region = (0,0,10,10)` rectangle of the spec scenario. -/
def rect10 : Rect := ⟨0, 0, 10, 10⟩

/-- First of two 4×4 images that agree on row 1 and differ on every
other row. -/
def mImg1 : RasterImage :=
  ⟨4, 4, fun _ r => if r = 1 then ⟨1, 2, 3, 4⟩ else ⟨9, 9, 9, 9⟩⟩

/-- Second of the pair: same row 1 as `mImg1`, different other rows. -/
def mImg2 : RasterImage :=
  ⟨4, 4, fun _ r => if r = 1 then ⟨1, 2, 3, 4⟩ else ⟨7, 7, 7, 7⟩⟩

/-! ### Basic lemmas about `intRange` and the accumulation loop -/

theorem mem_intRange {a b i : Int} : i ∈ intRange a b ↔ a ≤ i ∧ i < b := by
  unfold intRange
  rw [List.mem_map]
  constructor
  · rintro ⟨k, hk, rfl⟩
    rw [List.mem_range] at hk
    omega
  · intro h
    refine ⟨(i - a).toNat, ?_, by omega⟩
    rw [List.mem_range]
    omega

theorem nodup_intRange (a b : Int) : (intRange a b).Nodup := by
  unfold intRange
  exact List.Nodup.map (fun k1 k2 h => by omega) (List.nodup_range _)

theorem accList_nil {α : Type} (src : RasterImage) (f : α → Int × Int) (acc : BlurAcc) :
    accList src f [] acc = acc := rfl

theorem accList_cons {α : Type} (src : RasterImage) (f : α → Int × Int) (d : α)
    (l : List α) (acc : BlurAcc) :
    accList src f (d :: l) acc = accList src f l (sampleStep src acc (f d)) := rfl

theorem accList_count_le {α : Type} (src : RasterImage) (f : α → Int × Int) :
    ∀ (l : List α) (acc : BlurAcc), acc.count ≤ (accList src f l acc).count := by
  intro l
  induction l with
  | nil => intro acc; exact le_rfl
  | cons d l ih =>
    intro acc
    rw [accList_cons]
    refine le_trans ?_ (ih _)
    simp only [sampleStep]
    split
    · simp
    · exact le_rfl

theorem accList_count_pos {α : Type} (src : RasterImage) (f : α → Int × Int) :
    ∀ (l : List α) (acc : BlurAcc) (d : α), d ∈ l → src.inB (f d).1 (f d).2 →
      0 < (accList src f l acc).count := by
  intro l
  induction l with
  | nil =>
    intro acc d hd _
    exact absurd hd (List.not_mem_nil d)
  | cons e l ih =>
    intro acc d hd hb
    rw [accList_cons]
    rcases List.mem_cons.mp hd with h | h
    · subst h
      refine lt_of_lt_of_le ?_ (accList_count_le src f l _)
      simp only [sampleStep, if_pos hb]
      simp
    · exact ih _ d h hb

theorem accList_const {α : Type} (src : RasterImage) (f : α → Int × Int) (v : Pixel) :
    ∀ (l : List α) (acc : BlurAcc),
      (∀ d ∈ l, src.inB (f d).1 (f d).2 → src.pix (f d).1 (f d).2 = v) →
      ∃ n : Nat, accList src f l acc =
        ⟨acc.r + n * v.r, acc.g + n * v.g, acc.b + n * v.b, acc.a + n * v.a, acc.count + n⟩ := by
  intro l
  induction l with
  | nil =>
    intro acc _
    exact ⟨0, by simp [accList]⟩
  | cons d l ih =>
    intro acc h
    have hrest : ∀ e ∈ l, src.inB (f e).1 (f e).2 → src.pix (f e).1 (f e).2 = v :=
      fun e he => h e (List.mem_cons_of_mem _ he)
    rw [accList_cons]
    by_cases hb : src.inB (f d).1 (f d).2
    · obtain ⟨n, hn⟩ := ih (sampleStep src acc (f d)) hrest
      refine ⟨n + 1, ?_⟩
      rw [hn]
      simp only [sampleStep, if_pos hb, h d (List.mem_cons_self d l) hb]
      simp only [BlurAcc.mk.injEq]
      refine ⟨by ring, by ring, by ring, by ring, by ring⟩
    · obtain ⟨n, hn⟩ := ih (sampleStep src acc (f d)) hrest
      refine ⟨n, ?_⟩
      rw [hn]
      simp only [sampleStep, if_neg hb]

theorem accList_congr {α : Type} (src1 src2 : RasterImage) (hw : src1.width = src2.width)
    (hh : src1.height = src2.height) (f : α → Int × Int) :
    ∀ (l : List α) (acc : BlurAcc),
      (∀ d ∈ l, src1.inB (f d).1 (f d).2 →
        src1.pix (f d).1 (f d).2 = src2.pix (f d).1 (f d).2) →
      accList src1 f l acc = accList src2 f l acc := by
  intro l
  induction l with
  | nil => intro acc _; rfl
  | cons d l ih =>
    intro acc h
    have hiff : src1.inB (f d).1 (f d).2 ↔ src2.inB (f d).1 (f d).2 := by
      unfold RasterImage.inB
      rw [hw, hh]
    have hstep : sampleStep src1 acc (f d) = sampleStep src2 acc (f d) := by
      by_cases hb : src1.inB (f d).1 (f d).2
      · simp only [sampleStep, if_pos hb, if_pos (hiff.mp hb),
          h d (List.mem_cons_self d l) hb]
      · simp only [sampleStep, if_neg hb, if_neg (fun hc => hb (hiff.mpr hc))]
    rw [accList_cons, accList_cons, hstep]
    exact ih _ (fun e he => h e (List.mem_cons_of_mem _ he))

theorem accList_spec {α : Type} (src : RasterImage) (f : α → Int × Int) :
    ∀ (l : List α) (acc : BlurAcc),
      accList src f l acc =
        ⟨acc.r + (((l.map f).filter (fun s => decide (src.inB s.1 s.2))).map
            (fun s => (src.pix s.1 s.2).r)).sum,
         acc.g + (((l.map f).filter (fun s => decide (src.inB s.1 s.2))).map
            (fun s => (src.pix s.1 s.2).g)).sum,
         acc.b + (((l.map f).filter (fun s => decide (src.inB s.1 s.2))).map
            (fun s => (src.pix s.1 s.2).b)).sum,
         acc.a + (((l.map f).filter (fun s => decide (src.inB s.1 s.2))).map
            (fun s => (src.pix s.1 s.2).a)).sum,
         acc.count + ((l.map f).filter (fun s => decide (src.inB s.1 s.2))).length⟩ := by
  intro l
  induction l with
  | nil =>
    intro acc
    simp [accList]
  | cons d l ih =>
    intro acc
    rw [accList_cons, ih]
    by_cases hb : src.inB (f d).1 (f d).2
    · simp only [sampleStep, if_pos hb, List.map_cons, List.filter_cons,
        decide_eq_true hb, if_pos trivial, List.sum_cons, List.length_cons]
      simp only [BlurAcc.mk.injEq]
      refine ⟨by ring, by ring, by ring, by ring, by ring⟩
    · simp only [sampleStep, if_neg hb, List.map_cons, List.filter_cons]
      rw [decide_eq_false hb]
      simp

/-! ### Lemmas about the pixel loop -/

theorem blurStep_eq (bt : BlurType) (x y radius : Int) (st : RasterImage × RasterImage)
    (p : Int × Int) :
    blurStep bt x y radius st p =
      (st.1,
        if 0 < (sampleAt bt st.1 (x + p.1) (y + p.2) radius).count
        then setPixel st.2 p.1 p.2 (avgPixel (sampleAt bt st.1 (x + p.1) (y + p.2) radius))
        else st.2) := by
  simp only [blurStep]
  split <;> rfl

theorem blurLoop_nil (bt : BlurType) (x y radius : Int) (st : RasterImage × RasterImage) :
    blurLoop bt x y radius [] st = st := rfl

theorem blurLoop_cons (bt : BlurType) (x y radius : Int) (p : Int × Int)
    (pts : List (Int × Int)) (st : RasterImage × RasterImage) :
    blurLoop bt x y radius (p :: pts) st =
      blurLoop bt x y radius pts (blurStep bt x y radius st p) := rfl

theorem blurLoop_append (bt : BlurType) (x y radius : Int) (l1 l2 : List (Int × Int))
    (st : RasterImage × RasterImage) :
    blurLoop bt x y radius (l1 ++ l2) st =
      blurLoop bt x y radius l2 (blurLoop bt x y radius l1 st) :=
  List.foldl_append _ _ _ _

theorem blurLoop_fst (bt : BlurType) (x y radius : Int) :
    ∀ (pts : List (Int × Int)) (st : RasterImage × RasterImage),
      (blurLoop bt x y radius pts st).1 = st.1 := by
  intro pts
  induction pts with
  | nil => intro st; rfl
  | cons p pts ih =>
    intro st
    rw [blurLoop_cons, ih, blurStep_eq]

theorem blurLoop_snd_dims (bt : BlurType) (x y radius : Int) :
    ∀ (pts : List (Int × Int)) (st : RasterImage × RasterImage),
      (blurLoop bt x y radius pts st).2.width = st.2.width ∧
        (blurLoop bt x y radius pts st).2.height = st.2.height := by
  intro pts
  induction pts with
  | nil => intro st; exact ⟨rfl, rfl⟩
  | cons p pts ih =>
    intro st
    rw [blurLoop_cons, (ih _).1, (ih _).2, blurStep_eq]
    constructor <;> (split <;> rfl)

theorem blurLoop_snd_untouched (bt : BlurType) (x y radius : Int) (i j : Int) :
    ∀ (pts : List (Int × Int)) (st : RasterImage × RasterImage), (i, j) ∉ pts →
      (blurLoop bt x y radius pts st).2.pix i j = st.2.pix i j := by
  intro pts
  induction pts with
  | nil => intro st _; rfl
  | cons p pts ih =>
    intro st h
    obtain ⟨pa, pb⟩ := p
    have h1 : (i, j) ≠ (pa, pb) := fun he => h (he ▸ List.mem_cons_self _ pts)
    have h2 : (i, j) ∉ pts := fun he => h (List.mem_cons_of_mem _ he)
    rw [blurLoop_cons, ih _ h2]
    simp only [blurStep_eq]
    split
    · simp only [setPixel]
      rw [if_neg]
      rintro ⟨rfl, rfl⟩
      exact h1 rfl
    · rfl

theorem blurLoop_snd_write (bt : BlurType) (x y radius : Int) (src t : RasterImage)
    (i j : Int) (l1 l2 : List (Int × Int)) (h1 : (i, j) ∉ l1) (h2 : (i, j) ∉ l2) :
    (blurLoop bt x y radius (l1 ++ (i, j) :: l2) (src, t)).2.pix i j =
      (if 0 < (sampleAt bt src (x + i) (y + j) radius).count
       then avgPixel (sampleAt bt src (x + i) (y + j) radius)
       else t.pix i j) := by
  rw [blurLoop_append, blurLoop_cons, blurLoop_snd_untouched bt x y radius i j _ _ h2]
  simp only [blurStep_eq, blurLoop_fst]
  split
  · simp [setPixel]
  · exact blurLoop_snd_untouched bt x y radius i j _ _ h1

theorem mem_pixelPts {w h a b : Int} :
    (a, b) ∈ pixelPts w h ↔ (0 ≤ a ∧ a < w) ∧ (0 ≤ b ∧ b < h) := by
  unfold pixelPts
  simp only [List.mem_flatMap, List.mem_map, mem_intRange]
  constructor
  · rintro ⟨py, hpy, px, hpx, he⟩
    injection he with e1 e2
    subst e1
    subst e2
    exact ⟨hpx, hpy⟩
  · rintro ⟨ha, hb⟩
    exact ⟨b, hb, a, ha, rfl⟩

theorem nodup_pixelPts (w h : Int) : (pixelPts w h).Nodup := by
  unfold pixelPts
  rw [List.nodup_flatMap]
  constructor
  · intro py _
    refine List.Nodup.map ?_ (nodup_intRange 0 w)
    intro a b hab
    injection hab
  · refine List.Pairwise.imp ?_ (nodup_intRange 0 h)
    intro a b hab s hs1 hs2
    simp only [List.mem_map] at hs1 hs2
    obtain ⟨px1, _, rfl⟩ := hs1
    obtain ⟨px2, _, he⟩ := hs2
    injection he with e1 e2
    exact hab e2.symm

theorem blurLoop_temp_pix (bt : BlurType) (x y radius w h : Int) (src t : RasterImage)
    (a b : Int) (ha : 0 ≤ a) (ha2 : a < w) (hb : 0 ≤ b) (hb2 : b < h) :
    (blurLoop bt x y radius (pixelPts w h) (src, t)).2.pix a b =
      (if 0 < (sampleAt bt src (x + a) (y + b) radius).count
       then avgPixel (sampleAt bt src (x + a) (y + b) radius)
       else t.pix a b) := by
  have hmem : (a, b) ∈ pixelPts w h := mem_pixelPts.mpr ⟨⟨ha, ha2⟩, ⟨hb, hb2⟩⟩
  obtain ⟨l1, l2, hsplit⟩ := List.append_of_mem hmem
  have hnd := nodup_pixelPts w h
  rw [hsplit, List.nodup_append] at hnd
  obtain ⟨hn1, hn2, hdisj⟩ := hnd
  have h2 : (a, b) ∉ l2 := (List.nodup_cons.mp hn2).1
  have h1 : (a, b) ∉ l1 := fun hm1 => hdisj hm1 (List.mem_cons_self _ _)
  rw [hsplit]
  exact blurLoop_snd_write bt x y radius src t a b l1 l2 h1 h2

/-! ### Lemmas about clamping and the top-level function -/

theorem clampedX_nonneg (src : RasterImage) (rect : Rect) : 0 ≤ clampedX src rect :=
  le_max_left 0 _

theorem clampedY_nonneg (src : RasterImage) (rect : Rect) : 0 ≤ clampedY src rect :=
  le_max_left 0 _

theorem clampedW_le (src : RasterImage) (rect : Rect) :
    clampedW src rect ≤ (src.width : Int) - clampedX src rect :=
  min_le_right _ _

theorem clampedH_le (src : RasterImage) (rect : Rect) :
    clampedH src rect ≤ (src.height : Int) - clampedY src rect :=
  min_le_right _ _

theorem clampRadius_pos (radius : Int) : 1 ≤ clampRadius radius :=
  le_max_left 1 _

theorem result1_pix (src : RasterImage) (i j : Int) (hin : src.inB i j) :
    (drawImageAt (mkFilled src.width src.height Pixel.transparent) 0 0 src).pix i j =
      src.pix i j := by
  obtain ⟨h1, h2, h3, h4⟩ := hin
  simp only [drawImageAt, mkFilled, RasterImage.inB]
  rw [if_pos ⟨h1, by omega, h3, by omega, h1, h2, h3, h4⟩]
  simp

theorem apply_blur_dims (src : RasterImage) (rect : Rect) (bt : BlurType) (radius : Int) :
    (apply_blur src rect bt radius).width = src.width ∧
      (apply_blur src rect bt radius).height = src.height := by
  simp only [apply_blur, apply_blur_run]
  split <;> exact ⟨rfl, rfl⟩

theorem apply_blur_deg_pix (src : RasterImage) (rect : Rect) (bt : BlurType) (radius : Int)
    (hdeg : clampedW src rect ≤ 1 ∨ clampedH src rect ≤ 1) (i j : Int) (hin : src.inB i j) :
    (apply_blur src rect bt radius).pix i j = src.pix i j := by
  simp only [apply_blur, apply_blur_run, if_pos hdeg]
  exact result1_pix src i j hin

theorem drawImageAt_pix_out (dst : RasterImage) (ox oy : Int) (s : RasterImage) (i j : Int)
    (h : ¬(ox ≤ i ∧ i < ox + (s.width : Int) ∧ oy ≤ j ∧ j < oy + (s.height : Int) ∧
      dst.inB i j)) :
    (drawImageAt dst ox oy s).pix i j = dst.pix i j := by
  simp only [drawImageAt]
  rw [if_neg h]

theorem drawImageAt_pix_in (dst : RasterImage) (ox oy : Int) (s : RasterImage) (i j : Int)
    (h : ox ≤ i ∧ i < ox + (s.width : Int) ∧ oy ≤ j ∧ j < oy + (s.height : Int) ∧
      dst.inB i j) :
    (drawImageAt dst ox oy s).pix i j = s.pix (i - ox) (j - oy) := by
  simp only [drawImageAt]
  rw [if_pos h]

theorem apply_blur_out_pix (src : RasterImage) (rect : Rect) (bt : BlurType) (radius : Int)
    (i j : Int) (hin : src.inB i j) (hout : ¬ inClampedRegion src rect i j) :
    (apply_blur src rect bt radius).pix i j = src.pix i j := by
  by_cases hdeg : clampedW src rect ≤ 1 ∨ clampedH src rect ≤ 1
  · exact apply_blur_deg_pix src rect bt radius hdeg i j hin
  · simp only [apply_blur, apply_blur_run, if_neg hdeg]
    rw [drawImageAt_pix_out]
    · exact result1_pix src i j hin
    · have hdims := blurLoop_snd_dims bt (clampedX src rect) (clampedY src rect)
        (clampRadius radius) (pixelPts (clampedW src rect) (clampedH src rect))
        (src, mkFilled (clampedW src rect).toNat (clampedH src rect).toNat Pixel.transparent)
      rintro ⟨c1, c2, c3, c4, -⟩
      rw [hdims.1] at c2
      rw [hdims.2] at c4
      simp only [mkFilled] at c2 c4
      apply hout
      unfold inClampedRegion
      push_neg at hdeg
      refine ⟨c1, by omega, c3, by omega⟩

theorem apply_blur_in_pix (src : RasterImage) (rect : Rect) (bt : BlurType) (radius : Int)
    (a b : Int) (hw : 1 < clampedW src rect) (hh : 1 < clampedH src rect)
    (ha : 0 ≤ a) (ha2 : a < clampedW src rect) (hb : 0 ≤ b) (hb2 : b < clampedH src rect) :
    (apply_blur src rect bt radius).pix (clampedX src rect + a) (clampedY src rect + b) =
      (if 0 < (sampleAt bt src (clampedX src rect + a) (clampedY src rect + b)
          (clampRadius radius)).count
       then avgPixel (sampleAt bt src (clampedX src rect + a) (clampedY src rect + b)
          (clampRadius radius))
       else Pixel.transparent) := by
  have hdeg : ¬(clampedW src rect ≤ 1 ∨ clampedH src rect ≤ 1) := by omega
  simp only [apply_blur, apply_blur_run, if_neg hdeg]
  have hdims := blurLoop_snd_dims bt (clampedX src rect) (clampedY src rect)
    (clampRadius radius) (pixelPts (clampedW src rect) (clampedH src rect))
    (src, mkFilled (clampedW src rect).toNat (clampedH src rect).toNat Pixel.transparent)
  rw [drawImageAt_pix_in]
  · have e1 : clampedX src rect + a - clampedX src rect = a := by ring
    have e2 : clampedY src rect + b - clampedY src rect = b := by ring
    rw [e1, e2, blurLoop_temp_pix bt (clampedX src rect) (clampedY src rect)
      (clampRadius radius) (clampedW src rect) (clampedH src rect) src
      (mkFilled (clampedW src rect).toNat (clampedH src rect).toNat Pixel.transparent)
      a b ha ha2 hb hb2]
    split <;> rfl
  · have h1 := clampedX_nonneg src rect
    have h2 := clampedW_le src rect
    have h3 := clampedY_nonneg src rect
    have h4 := clampedH_le src rect
    have e3 : (drawImageAt (mkFilled src.width src.height Pixel.transparent) 0 0 src).width
        = src.width := rfl
    have e4 : (drawImageAt (mkFilled src.width src.height Pixel.transparent) 0 0 src).height
        = src.height := rfl
    refine ⟨by omega, ?_, by omega, ?_, ?_⟩
    · rw [hdims.1]
      simp only [mkFilled]
      omega
    · rw [hdims.2]
      simp only [mkFilled]
      omega
    · unfold RasterImage.inB
      rw [e3, e4]
      refine ⟨by omega, by omega, by omega, by omega⟩

/-! ### Sampling lemmas: positivity, constant fields, spec refinement -/

theorem mem_boxOffsets {R dx dy : Int} :
    (dx, dy) ∈ boxOffsets R ↔ (-R ≤ dx ∧ dx < R + 1) ∧ (-R ≤ dy ∧ dy < R + 1) := by
  unfold boxOffsets
  simp only [List.mem_flatMap, List.mem_map, mem_intRange]
  constructor
  · rintro ⟨dy2, hdy, dx2, hdx, he⟩
    injection he with e1 e2
    subst e1
    subst e2
    exact ⟨hdx, hdy⟩
  · rintro ⟨h1, h2⟩
    exact ⟨dy, h2, dx, h1, rfl⟩

theorem sampleAt_count_pos (bt : BlurType) (src : RasterImage) (cx cy R : Int)
    (hR : 1 ≤ R) (hin : src.inB cx cy) : 0 < (sampleAt bt src cx cy R).count := by
  cases bt with
  | motion =>
    show 0 < (accumulateMotion src cx cy R).count
    unfold accumulateMotion
    refine accList_count_pos src _ _ _ (0 : Int) ?_ ?_
    · rw [mem_intRange]
      omega
    · simpa using hin
  | gaussian =>
    show 0 < (accumulateBox src cx cy R).count
    unfold accumulateBox
    refine accList_count_pos src _ _ _ ((0 : Int), (0 : Int)) ?_ ?_
    · rw [mem_boxOffsets]
      omega
    · simpa using hin
  | box =>
    show 0 < (accumulateBox src cx cy R).count
    unfold accumulateBox
    refine accList_count_pos src _ _ _ ((0 : Int), (0 : Int)) ?_ ?_
    · rw [mem_boxOffsets]
      omega
    · simpa using hin

theorem sampleAt_const (bt : BlurType) (src : RasterImage) (cx cy R : Int) (v : Pixel)
    (hconst : ∀ i j : Int, src.inB i j →
      (cx - R ≤ i ∧ i ≤ cx + R ∧ cy - R ≤ j ∧ j ≤ cy + R) → src.pix i j = v) :
    ∃ n : Nat, sampleAt bt src cx cy R = ⟨n * v.r, n * v.g, n * v.b, n * v.a, n⟩ := by
  cases bt with
  | motion =>
    show ∃ n : Nat, accumulateMotion src cx cy R = _
    unfold accumulateMotion
    obtain ⟨n, hn⟩ := accList_const src (fun dx => (cx + dx, cy)) v
      (intRange (-R) (R + 1)) BlurAcc.zero (by
        intro dx hdx hb
        rw [mem_intRange] at hdx
        exact hconst (cx + dx) cy hb ⟨by omega, by omega, by omega, by omega⟩)
    exact ⟨n, by simpa [BlurAcc.zero] using hn⟩
  | gaussian =>
    show ∃ n : Nat, accumulateBox src cx cy R = _
    unfold accumulateBox
    obtain ⟨n, hn⟩ := accList_const src (fun d => (cx + d.1, cy + d.2)) v
      (boxOffsets R) BlurAcc.zero (by
        rintro ⟨dx, dy⟩ hd hb
        rw [mem_boxOffsets] at hd
        exact hconst (cx + dx) (cy + dy) hb ⟨by omega, by omega, by omega, by omega⟩)
    exact ⟨n, by simpa [BlurAcc.zero] using hn⟩
  | box =>
    show ∃ n : Nat, accumulateBox src cx cy R = _
    unfold accumulateBox
    obtain ⟨n, hn⟩ := accList_const src (fun d => (cx + d.1, cy + d.2)) v
      (boxOffsets R) BlurAcc.zero (by
        rintro ⟨dx, dy⟩ hd hb
        rw [mem_boxOffsets] at hd
        exact hconst (cx + dx) (cy + dy) hb ⟨by omega, by omega, by omega, by omega⟩)
    exact ⟨n, by simpa [BlurAcc.zero] using hn⟩

theorem avgPixel_const (n : Nat) (v : Pixel) (hn : 0 < n) :
    avgPixel ⟨n * v.r, n * v.g, n * v.b, n * v.a, n⟩ = v := by
  unfold avgPixel
  simp only [Nat.mul_div_cancel_left _ hn]

theorem accumulateBox_spec (src : RasterImage) (cx cy R : Int) :
    accumulateBox src cx cy R =
      ⟨((specWindow src cx cy R).map (fun s => (src.pix s.1 s.2).r)).sum,
       ((specWindow src cx cy R).map (fun s => (src.pix s.1 s.2).g)).sum,
       ((specWindow src cx cy R).map (fun s => (src.pix s.1 s.2).b)).sum,
       ((specWindow src cx cy R).map (fun s => (src.pix s.1 s.2).a)).sum,
       (specWindow src cx cy R).length⟩ := by
  unfold accumulateBox specWindow
  rw [accList_spec]
  have hlist : (boxOffsets R).map (fun d : Int × Int => (cx + d.1, cy + d.2)) =
      (intRange (-R) (R + 1)).flatMap
        (fun dy => (intRange (-R) (R + 1)).map (fun dx => (cx + dx, cy + dy))) := by
    unfold boxOffsets
    rw [List.map_flatMap]
    simp only [List.map_map]
    rfl
  rw [hlist]
  simp [BlurAcc.zero]

theorem accumulateMotion_congr (src1 src2 : RasterImage) (hw : src1.width = src2.width)
    (hh : src1.height = src2.height) (cx cy R : Int)
    (hrow : ∀ c : Int, 0 ≤ c → c < (src1.width : Int) → src1.pix c cy = src2.pix c cy) :
    accumulateMotion src1 cx cy R = accumulateMotion src2 cx cy R := by
  unfold accumulateMotion
  refine accList_congr src1 src2 hw hh _ _ _ ?_
  intro dx _ hb
  obtain ⟨b1, b2, _, _⟩ := hb
  exact hrow (cx + dx) b1 b2

theorem apply_blur_run_fst (src : RasterImage) (rect : Rect) (bt : BlurType) (radius : Int) :
    (apply_blur_run src rect bt radius).1 = src := by
  simp only [apply_blur_run]
  split
  · rfl
  · exact blurLoop_fst bt _ _ _ _ _

theorem apply_blur_radius_congr (src : RasterImage) (rect : Rect) (bt : BlurType)
    (r1 r2 : Int) (h : clampRadius r1 = clampRadius r2) :
    apply_blur src rect bt r1 = apply_blur src rect bt r2 := by
  simp only [apply_blur, apply_blur_run, h]

theorem percList_bound (total : Nat) (hpos : 0 < total) :
    ∀ v ∈ (((List.range total).map (fun i => i + 1)).filter (fun k => k % 100 == 0)).map
      (fun k => k * 100 / total), v ≤ 100 := by
  intro v hv
  obtain ⟨k, hk, rfl⟩ := List.mem_map.mp hv
  obtain ⟨hk1, -⟩ := List.mem_filter.mp hk
  obtain ⟨i, hi, rfl⟩ := List.mem_map.mp hk1
  rw [List.mem_range] at hi
  calc (i + 1) * 100 / total ≤ total * 100 / total :=
        Nat.div_le_div_right (Nat.mul_le_mul_right _ (by omega))
    _ = 100 := Nat.mul_div_cancel_left 100 hpos

theorem percList_pairwise (total : Nat) :
    List.Pairwise (· ≤ ·) ((((List.range total).map (fun i => i + 1)).filter
      (fun k => k % 100 == 0)).map (fun k => k * 100 / total)) := by
  have h1 : List.Pairwise (· < ·) ((List.range total).map (fun i => i + 1)) :=
    List.pairwise_map.mpr ((List.pairwise_lt_range total).imp (by omega))
  have h2 := List.Pairwise.filter (fun k => k % 100 == 0) h1
  exact List.pairwise_map.mpr
    (h2.imp (fun hab => Nat.div_le_div_right (Nat.mul_le_mul_right _ (le_of_lt hab))))

/-! ### The claims -/

/-- C1: for every source image, region and blur parameters, `apply_blur`
returns an image with the same width and height as the source, and every
in-bounds pixel whose absolute coordinates lie strictly outside the clamped
region is identical to the corresponding source pixel. -/
theorem claim1_shape_and_outside_identity (src : RasterImage) (rect : Rect) (bt : BlurType)
    (radius : Int) (i j : Int) (hin : src.inB i j)
    (hout : ¬ inClampedRegion src rect i j) :
    (apply_blur src rect bt radius).width = src.width ∧
      (apply_blur src rect bt radius).height = src.height ∧
      (apply_blur src rect bt radius).pix i j = src.pix i j :=
  ⟨(apply_blur_dims src rect bt radius).1, (apply_blur_dims src rect bt radius).2,
    apply_blur_out_pix src rect bt radius i j hin hout⟩

/-- Witness for C1 at a concrete input: an 8×8 image, region (2,2,4,4),
box blur of radius 5, pixel (0,0) outside the region. -/
theorem claim1_witness :
    (apply_blur wSrc wRect .box 5).width = wSrc.width ∧
      (apply_blur wSrc wRect .box 5).height = wSrc.height ∧
      (apply_blur wSrc wRect .box 5).pix 0 0 = wSrc.pix 0 0 :=
  claim1_shape_and_outside_identity wSrc wRect .box 5 0 0 (by decide) (by decide)

/-- C2: when the clamped region is degenerate (width ≤ 1 or height ≤ 1),
`apply_blur` returns an image pixel-for-pixel identical to the source. -/
theorem claim2_degenerate_noop (src : RasterImage) (rect : Rect) (bt : BlurType)
    (radius : Int) (hdeg : clampedW src rect ≤ 1 ∨ clampedH src rect ≤ 1)
    (i j : Int) (hin : src.inB i j) :
    (apply_blur src rect bt radius).width = src.width ∧
      (apply_blur src rect bt radius).height = src.height ∧
      (apply_blur src rect bt radius).pix i j = src.pix i j :=
  ⟨(apply_blur_dims src rect bt radius).1, (apply_blur_dims src rect bt radius).2,
    apply_blur_deg_pix src rect bt radius hdeg i j hin⟩

/-- Witness for C2 at a concrete input: region (0,0,1,5) clamps to width 1. -/
theorem claim2_witness :
    (apply_blur wSrc degRect .motion 3).width = wSrc.width ∧
      (apply_blur wSrc degRect .motion 3).height = wSrc.height ∧
      (apply_blur wSrc degRect .motion 3).pix 3 3 = wSrc.pix 3 3 :=
  claim2_degenerate_noop wSrc degRect .motion 3 (by decide) 3 3 (by decide)

/-- C3: if every in-bounds source pixel within the clamped region padded by
the effective radius on all sides has the same channel values `v`, then
every blurred pixel inside the region equals `v` exactly, for every blur
kind. -/
theorem claim3_uniform_field (bt : BlurType) (src : RasterImage) (rect : Rect)
    (radius : Int) (v : Pixel) (px py : Int)
    (hpx : 0 ≤ px) (hpx2 : px < clampedW src rect)
    (hpy : 0 ≤ py) (hpy2 : py < clampedH src rect)
    (hv : ∀ i j : Int, src.inB i j → inPaddedRegion src rect (clampRadius radius) i j →
      src.pix i j = v) :
    (apply_blur src rect bt radius).pix (clampedX src rect + px) (clampedY src rect + py)
      = v := by
  have hx0 := clampedX_nonneg src rect
  have hy0 := clampedY_nonneg src rect
  have hwle := clampedW_le src rect
  have hhle := clampedH_le src rect
  have hr := clampRadius_pos radius
  have hin : src.inB (clampedX src rect + px) (clampedY src rect + py) := by
    unfold RasterImage.inB
    refine ⟨by omega, by omega, by omega, by omega⟩
  by_cases hdeg : clampedW src rect ≤ 1 ∨ clampedH src rect ≤ 1
  · rw [apply_blur_deg_pix src rect bt radius hdeg _ _ hin]
    refine hv _ _ hin ?_
    unfold inPaddedRegion
    refine ⟨by omega, by omega, by omega, by omega⟩
  · push_neg at hdeg
    rw [apply_blur_in_pix src rect bt radius px py hdeg.1 hdeg.2 hpx hpx2 hpy hpy2]
    have hcount := sampleAt_count_pos bt src (clampedX src rect + px)
      (clampedY src rect + py) (clampRadius radius) hr hin
    rw [if_pos hcount]
    obtain ⟨n, hn⟩ := sampleAt_const bt src (clampedX src rect + px)
      (clampedY src rect + py) (clampRadius radius) v (by
        intro i j hbij hbox
        refine hv i j hbij ?_
        unfold inPaddedRegion
        obtain ⟨c1, c2, c3, c4⟩ := hbox
        refine ⟨by omega, by omega, by omega, by omega⟩)
    have hnpos : 0 < n := by
      rw [hn] at hcount
      simpa using hcount
    rw [hn]
    exact avgPixel_const n v hnpos

/-- Witness for C3 at a concrete input: a 9×9 image uniformly `v0`, region
(1,1,5,5), box blur of radius 2, region pixel (2,3). -/
theorem claim3_witness :
    (apply_blur constImg cRect .box 2).pix (clampedX constImg cRect + 2)
      (clampedY constImg cRect + 3) = v0 :=
  claim3_uniform_field .box constImg cRect 2 v0 2 3 (by decide) (by decide) (by decide)
    (by decide) (fun _ _ _ _ => rfl)

/-- C4: for the box blur, the output pixel inside the region is exactly the
per-channel floor-division average over the in-bounds samples of the
`[-radius, radius]²` window (the spec-side `specBoxAvg`); moreover, in the
spec scenario (region (0,0,10,10) on a 100×100 image, radius 5), the window
of pixel (0,0) consists of exactly 36 samples, all with coordinates in
`[0,5]²` — no negative and no wrapped coordinates. -/
theorem claim4_box_average_spec (src : RasterImage) (rect : Rect) (radius : Int)
    (px py : Int) (hw : 1 < clampedW src rect) (hh : 1 < clampedH src rect)
    (hpx : 0 ≤ px) (hpx2 : px < clampedW src rect)
    (hpy : 0 ≤ py) (hpy2 : py < clampedH src rect) :
    ((apply_blur src rect .box radius).pix (clampedX src rect + px)
        (clampedY src rect + py) =
      specBoxAvg src (clampedX src rect + px) (clampedY src rect + py)
        (clampRadius radius)) ∧
    (specWindow demoImage 0 0 5).length = 36 ∧
    (∀ s ∈ specWindow demoImage 0 0 5, (0 ≤ s.1 ∧ s.1 ≤ 5) ∧ (0 ≤ s.2 ∧ s.2 ≤ 5)) := by
  refine ⟨?_, by decide, by decide⟩
  have hx0 := clampedX_nonneg src rect
  have hy0 := clampedY_nonneg src rect
  have hwle := clampedW_le src rect
  have hhle := clampedH_le src rect
  have hin : src.inB (clampedX src rect + px) (clampedY src rect + py) := by
    unfold RasterImage.inB
    refine ⟨by omega, by omega, by omega, by omega⟩
  rw [apply_blur_in_pix src rect .box radius px py hw hh hpx hpx2 hpy hpy2]
  have hcount := sampleAt_count_pos .box src (clampedX src rect + px)
    (clampedY src rect + py) (clampRadius radius) (clampRadius_pos radius) hin
  rw [if_pos hcount]
  show avgPixel (accumulateBox src _ _ _) = _
  rw [accumulateBox_spec]
  unfold avgPixel specBoxAvg
  rfl

/-- Witness for C4 at the spec scenario input itself. -/
theorem claim4_witness :
    ((apply_blur demoImage rect10 .box 5).pix (clampedX demoImage rect10 + 0)
        (clampedY demoImage rect10 + 0) =
      specBoxAvg demoImage (clampedX demoImage rect10 + 0) (clampedY demoImage rect10 + 0)
        (clampRadius 5)) ∧
    (specWindow demoImage 0 0 5).length = 36 ∧
    (∀ s ∈ specWindow demoImage 0 0 5, (0 ≤ s.1 ∧ s.1 ≤ 5) ∧ (0 ≤ s.2 ∧ s.2 ≤ 5)) :=
  claim4_box_average_spec demoImage rect10 5 0 0 (by decide) (by decide) (by decide)
    (by decide) (by decide) (by decide)

/-- C5: the horizontal motion blur is row-local — for two sources of equal
dimensions that agree on every in-bounds pixel of row `j`, the
motion-blurred images agree at every in-bounds pixel of row `j`. -/
theorem claim5_motion_row_local (src1 src2 : RasterImage) (rect : Rect) (radius : Int)
    (i j : Int) (hw : src1.width = src2.width) (hh : src1.height = src2.height)
    (hrow : ∀ c : Int, 0 ≤ c → c < (src1.width : Int) → src1.pix c j = src2.pix c j)
    (hin : src1.inB i j) :
    (apply_blur src1 rect .motion radius).pix i j =
      (apply_blur src2 rect .motion radius).pix i j := by
  have ex : clampedX src1 rect = clampedX src2 rect := by
    unfold clampedX
    rw [hw]
  have ey : clampedY src1 rect = clampedY src2 rect := by
    unfold clampedY
    rw [hh]
  have ew : clampedW src1 rect = clampedW src2 rect := by
    unfold clampedW clampedX
    rw [hw]
  have eh : clampedH src1 rect = clampedH src2 rect := by
    unfold clampedH clampedY
    rw [hh]
  have hin2 : src2.inB i j := by
    unfold RasterImage.inB at hin ⊢
    rw [← hw, ← hh]
    exact hin
  obtain ⟨hb1, hb2, hb3, hb4⟩ := hin
  have hsame : src1.pix i j = src2.pix i j := hrow i hb1 hb2
  by_cases hreg : inClampedRegion src1 rect i j
  · obtain ⟨c1, c2, c3, c4⟩ := hreg
    by_cases hdeg : clampedW src1 rect ≤ 1 ∨ clampedH src1 rect ≤ 1
    · have hdeg2 : clampedW src2 rect ≤ 1 ∨ clampedH src2 rect ≤ 1 := by
        rw [← ew, ← eh]
        exact hdeg
      rw [apply_blur_deg_pix src1 rect .motion radius hdeg i j ⟨hb1, hb2, hb3, hb4⟩,
        apply_blur_deg_pix src2 rect .motion radius hdeg2 i j hin2]
      exact hsame
    · push_neg at hdeg
      obtain ⟨a, rfl⟩ : ∃ a, i = clampedX src1 rect + a := ⟨i - clampedX src1 rect, by ring⟩
      obtain ⟨b, rfl⟩ : ∃ b, j = clampedY src1 rect + b := ⟨j - clampedY src1 rect, by ring⟩
      rw [apply_blur_in_pix src1 rect .motion radius a b hdeg.1 hdeg.2 (by omega)
        (by omega) (by omega) (by omega)]
      have h2 := apply_blur_in_pix src2 rect .motion radius a b (by omega) (by omega)
        (by omega) (by omega) (by omega) (by omega)
      rw [← ex, ← ey] at h2
      rw [h2]
      have hacc : sampleAt .motion src1 (clampedX src1 rect + a) (clampedY src1 rect + b)
          (clampRadius radius) =
          sampleAt .motion src2 (clampedX src1 rect + a) (clampedY src1 rect + b)
            (clampRadius radius) := by
        show accumulateMotion src1 _ _ _ = accumulateMotion src2 _ _ _
        exact accumulateMotion_congr src1 src2 hw hh _ _ _ (fun c hc1 hc2 => hrow c hc1 hc2)
      rw [hacc]
  · have hreg2 : ¬ inClampedRegion src2 rect i j := by
      unfold inClampedRegion at hreg ⊢
      rw [← ex, ← ey, ← ew, ← eh]
      exact hreg
    rw [apply_blur_out_pix src1 rect .motion radius i j ⟨hb1, hb2, hb3, hb4⟩ hreg,
      apply_blur_out_pix src2 rect .motion radius i j hin2 hreg2]
    exact hsame

/-- Witness for C5 at a concrete input: two 4×4 images equal on row 1 only. -/
theorem claim5_witness :
    (apply_blur mImg1 wRect .motion 2).pix 1 1 = (apply_blur mImg2 wRect .motion 2).pix 1 1 :=
  claim5_motion_row_local mImg1 mImg2 wRect 2 1 1 rfl rfl (fun _ _ _ => rfl) (by decide)

/-- C6: the caller-supplied radius is clamped to [1, 20] before use —
radius 9999 produces the same output image as radius 20, and radius -5
the same output as radius 1, for every source, region and blur kind. -/
theorem claim6_radius_clamped (src : RasterImage) (rect : Rect) (bt : BlurType) :
    apply_blur src rect bt 9999 = apply_blur src rect bt 20 ∧
      apply_blur src rect bt (-5) = apply_blur src rect bt 1 :=
  ⟨apply_blur_radius_congr src rect bt 9999 20 (by decide),
    apply_blur_radius_congr src rect bt (-5) 1 (by decide)⟩

/-- C7 counterexample: on a region that clamps to a degenerate size the
call completes successfully (the returned image is a copy of the source),
yet the progress sequence is empty, so no final value 100 is delivered. -/
theorem claim7_cex :
    (apply_blur wSrc degRect .box 3).pix 3 3 = wSrc.pix 3 3 ∧
      progressEmits wSrc degRect 3 = [] ∧
      (progressEmits wSrc degRect 3).getLast? ≠ some 100 :=
  ⟨by decide, by decide, by decide⟩

/-- C7 (amended): whenever the clamped region is non-degenerate, the
sequence of percentages delivered to the progress callback during one
`apply_blur` call is monotonically non-decreasing, every delivered value
lies in [0, 100], and the final delivered value is exactly 100; on the
degenerate no-op path nothing is emitted at all. -/
theorem claim7_progress (src : RasterImage) (rect : Rect) (radius : Int)
    (hw : 1 < clampedW src rect) (hh : 1 < clampedH src rect) :
    List.Pairwise (· ≤ ·) (progressEmits src rect radius) ∧
      (∀ v ∈ progressEmits src rect radius, 0 ≤ v ∧ v ≤ 100) ∧
      (progressEmits src rect radius).getLast? = some 100 := by
  have hdeg : ¬(clampedW src rect ≤ 1 ∨ clampedH src rect ≤ 1) := by omega
  have hp : (0 : Int) < clampedH src rect * clampedW src rect :=
    mul_pos (by omega) (by omega)
  simp only [progressEmits, if_neg hdeg]
  have hpos : 0 < (clampedH src rect * clampedW src rect).toNat := by omega
  refine ⟨?_, ?_, ?_⟩
  · rw [List.pairwise_append]
    refine ⟨percList_pairwise _, List.pairwise_singleton _ _, ?_⟩
    intro a ha b hb
    rw [List.mem_singleton] at hb
    subst hb
    exact percList_bound _ hpos a ha
  · intro v hv
    rcases List.mem_append.mp hv with h | h
    · exact ⟨Nat.zero_le v, percList_bound _ hpos v h⟩
    · rw [List.mem_singleton] at h
      subst h
      exact ⟨by omega, by omega⟩
  · exact List.getLast?_concat _

/-- Witness for C7 at a concrete input with a non-degenerate region. -/
theorem claim7_witness :
    List.Pairwise (· ≤ ·) (progressEmits wSrc wRect 4) ∧
      (∀ v ∈ progressEmits wSrc wRect 4, 0 ≤ v ∧ v ≤ 100) ∧
      (progressEmits wSrc wRect 4).getLast? = some 100 :=
  claim7_progress wSrc wRect 4 (by decide) (by decide)

theorem apply_blur_fallible_cases (exc okCopy okDraw : Bool) (src : RasterImage)
    (rect : Rect) (bt : BlurType) (radius : Int) :
    apply_blur_fallible exc okCopy okDraw src rect bt radius = apply_blur src rect bt radius ∨
      apply_blur_fallible exc okCopy okDraw src rect bt radius = src := by
  unfold apply_blur_fallible
  split_ifs <;> simp

/-- C8: `apply_blur` is fail-safe — under every combination of the modelled
internal failures it returns a valid image that is either the blur result
or the unmodified source (never nothing), and `BlurWorker.run` always emits
exactly one image through `finished`, again either the blur result or the
unmodified source. -/
theorem claim8_failsafe (exc okCopy okDraw : Bool) (src : RasterImage) (rect : Rect)
    (bt : BlurType) (radius : Int) :
    (apply_blur_fallible exc okCopy okDraw src rect bt radius =
        apply_blur src rect bt radius ∨
      apply_blur_fallible exc okCopy okDraw src rect bt radius = src) ∧
    (blurWorkerRun exc okCopy okDraw src rect bt radius).length = 1 ∧
    (∀ img ∈ blurWorkerRun exc okCopy okDraw src rect bt radius,
      img = apply_blur src rect bt radius ∨ img = src) := by
  refine ⟨apply_blur_fallible_cases exc okCopy okDraw src rect bt radius, ?_, ?_⟩
  · unfold blurWorkerRun
    split <;> rfl
  · intro img himg
    unfold blurWorkerRun at himg
    split at himg
    · rw [List.mem_singleton] at himg
      subst himg
      exact Or.inr rfl
    · rw [List.mem_singleton] at himg
      subst himg
      exact apply_blur_fallible_cases false okCopy okDraw src rect bt radius

/-- C9: `apply_blur` never mutates the source image — after the embedded
stateful run (which threads the source through every pixel-loop iteration),
the source component is unchanged, for every region, blur kind and radius,
on the degenerate path as well as the blurring path. -/
theorem claim9_source_not_mutated (src : RasterImage) (rect : Rect) (bt : BlurType)
    (radius : Int) : (apply_blur_run src rect bt radius).1 = src :=
  apply_blur_run_fst src rect bt radius

/-- C10: for every pixel inside the clamped non-degenerate region the
sampling window contains the in-bounds centre pixel, so the sample count is
positive and the output pixel inside the region is the computed average
(the `count > 0` branch is taken; no region pixel is left transparent). -/
theorem claim10_window_nonempty (bt : BlurType) (src : RasterImage) (rect : Rect)
    (radius : Int) (px py : Int) (hw : 1 < clampedW src rect) (hh : 1 < clampedH src rect)
    (hpx : 0 ≤ px) (hpx2 : px < clampedW src rect)
    (hpy : 0 ≤ py) (hpy2 : py < clampedH src rect) :
    0 < (sampleAt bt src (clampedX src rect + px) (clampedY src rect + py)
        (clampRadius radius)).count ∧
      (apply_blur src rect bt radius).pix (clampedX src rect + px)
          (clampedY src rect + py) =
        avgPixel (sampleAt bt src (clampedX src rect + px) (clampedY src rect + py)
          (clampRadius radius)) := by
  have hx0 := clampedX_nonneg src rect
  have hy0 := clampedY_nonneg src rect
  have hwle := clampedW_le src rect
  have hhle := clampedH_le src rect
  have hin : src.inB (clampedX src rect + px) (clampedY src rect + py) := by
    unfold RasterImage.inB
    refine ⟨by omega, by omega, by omega, by omega⟩
  have hcount := sampleAt_count_pos bt src (clampedX src rect + px)
    (clampedY src rect + py) (clampRadius radius) (clampRadius_pos radius) hin
  refine ⟨hcount, ?_⟩
  rw [apply_blur_in_pix src rect bt radius px py hw hh hpx hpx2 hpy hpy2, if_pos hcount]

/-- Witness for C10 at a concrete input. -/
theorem claim10_witness :
    0 < (sampleAt .gaussian wSrc (clampedX wSrc wRect + 1) (clampedY wSrc wRect + 2)
        (clampRadius 25)).count ∧
      (apply_blur wSrc wRect .gaussian 25).pix (clampedX wSrc wRect + 1)
          (clampedY wSrc wRect + 2) =
        avgPixel (sampleAt .gaussian wSrc (clampedX wSrc wRect + 1)
          (clampedY wSrc wRect + 2) (clampRadius 25)) :=
  claim10_window_nonempty .gaussian wSrc wRect 25 1 2 (by decide) (by decide) (by decide)
    (by decide) (by decide) (by decide)
